import Mathlib

/-!
# Verification of the SRAM region carve-out resolver (drivers/misc/sram.c)

Shallow embedding of the reservation normalizer, gap resolver and teardown
logic of the generic on-chip SRAM allocation driver.

Modelling conventions, matched against the C source:

* `struct sram_reserve` carries `u32 start` and `u32 size`.  The source
  checks each child resource against the region on the untruncated
  `resource_size_t` endpoints (`child_res.start < res->start ||
  child_res.end > res->end`) and only then assigns
  `child_res.start - res->start` and `resource_size(&child_res)` into the
  u32 fields.  The embedding mirrors this: `checkBounds` validates the
  untruncated region-relative values (`start + size ≤ R`; region-relative
  `Nat` offsets make the `start < base` disjunct vacuous, exactly as the
  spec's own `u64` data model does), and `truncBlock` then reduces both
  fields mod `2^32`.  The sentinel assignment
  `rblocks[nblocks - 1].start = size` likewise truncates the
  `unsigned long` region size into the u32 field, modelled by `sentinel`.
* The scan cursor is `unsigned long`, but the update
  `cur_start = block->start + block->size` adds two u32 values in
  `unsigned int` arithmetic before widening, so it wraps mod `2^32`; the
  embedding wraps it the same way.  The emitted chunk size
  `block->start - cur_start` and the comparisons against `cur_start` are
  computed in `unsigned long` after promotion and do not wrap on the paths
  the scan reaches (the scan errors out whenever `block->start < cur_start`).
* `sram_reserve_cmp` returns the u32 subtraction `ra->start - rb->start`
  truncated to a signed 32-bit `int`; `u32sub`/`toInt32` model that exactly.
* `list_sort` is embedded as the bottom-up binomial merge sort of
  `lib/list_sort.c`: elements are fed one at a time into a binary-counter
  array of pending sorted sublists (slot `k` holding `2^k` elements),
  colliding slots are merged on insertion, and a final pass merges the
  occupied slots in ascending order into the result.  `merge` takes from
  its first list when `cmp <= 0`, which makes the sort stable; the merge
  recursion is given explicit fuel that every call site instantiates with
  the combined length, which is always sufficient since each step consumes
  one element.  On any band where the comparator is a total preorder the
  result agrees with every stable sort, but on the non-transitive band
  (start differences of `2^31` and above) the exact merge schedule matters
  and is reproduced.
* External collaborator failures that the driver merely propagates are not
  modelled: `kmalloc` exhaustion (`-ENOMEM`), device-tree address
  resolution failures, and `gen_pool_add_virt` registration failure.  The
  two error paths that belong to the resolver itself — the bounds rejection
  and the overlap rejection, both `-EINVAL` but with distinct diagnostics —
  are modelled as distinct error values, following the code's two distinct
  failure sites.
* `sram_remove` is embedded over an abstract pool state exposing
  `gen_pool_size` and `gen_pool_avail` plus the optional clock; the
  devm-managed resources (mapping, memory region, the pool object itself)
  are released by the driver core outside this function and are not
  modelled.
-/

namespace Sram

/-- Embedding of `struct sram_reserve`: a reserved interval with
region-relative start offset and size.  The fields are `Nat`; the u32
truncation performed by the assignments into the C struct is applied
explicitly by `truncBlock` and `sentinel` below. -/
structure SramReserve where
  start : Nat
  size : Nat
deriving DecidableEq

/-- A free span emitted by the gap scan and registered with the allocator
pool via `gen_pool_add_virt` (offsets region-relative; the virtual/physical
translation is the affine shift by `virt_base` resp. `res->start`). -/
structure FreeSpan where
  start : Nat
  size : Nat
deriving DecidableEq

/-- The two resolver-owned failure modes of `sram_reserve_regions`.  Both are
`-EINVAL` in C; they are distinguished by their emission sites and
diagnostics ("reserved block ... outside the sram area" versus
"block at ... starts after current offset"). -/
inductive SramError where
  | outOfBounds
  | overlapDetected
deriving DecidableEq

/-- Subtraction of u32 values as computed by the C expression
`ra->start - rb->start`: wrap-around modulo `2^32`. -/
def u32sub (a b : Nat) : Nat :=
  (a % 2 ^ 32 + (2 ^ 32 - b % 2 ^ 32)) % 2 ^ 32

/-- Reinterpretation of a u32 bit pattern as a signed 32-bit `int`
(two's complement), the implicit conversion at the `return` of
`sram_reserve_cmp`. -/
def toInt32 (n : Nat) : Int :=
  if n % 2 ^ 32 < 2 ^ 31 then (n % 2 ^ 32 : Int) else (n % 2 ^ 32 : Int) - 2 ^ 32

/-- Embedding of `sram_reserve_cmp`: `return ra->start - rb->start;` where
the u32 difference is truncated to a signed `int`. -/
def sram_reserve_cmp (a b : SramReserve) : Int :=
  toInt32 (u32sub a.start b.start)

/-- Comparator-induced order used by `list_sort`: `a` sorts no later than `b`
iff `cmp(a, b) <= 0`. -/
def le_blk (a b : SramReserve) : Bool :=
  decide (sram_reserve_cmp a b ≤ 0)

/-- The `merge` helper of `lib/list_sort.c`: take from the first list while
`cmp <= 0`, else from the second.  The first argument is explicit fuel;
every recursive call consumes one element, so the combined length — which
every call site below passes — is always sufficient, and the fuel-exhausted
branch is never reached there. -/
def lmerge : Nat → List SramReserve → List SramReserve → List SramReserve
  | 0, a, b => a ++ b
  | _ + 1, [], b => b
  | _ + 1, x :: as, [] => x :: as
  | fuel + 1, x :: as, y :: bs =>
    if le_blk x y then x :: lmerge fuel as (y :: bs)
    else y :: lmerge fuel (x :: as) bs

/-- One insertion step into the binary-counter pending array `part[]` of
`list_sort`: walk up from slot 0, merging with each occupied slot, and park
the result in the first free slot (lowest slot first in the list). -/
def addPending : List (Option (List SramReserve)) → List SramReserve →
    List (Option (List SramReserve))
  | [], cur => [some cur]
  | none :: rest, cur => some cur :: rest
  | some p :: rest, cur => none :: addPending rest (lmerge (p.length + cur.length) p cur)

/-- One step of the final ascending pass of `list_sort`:
`list = merge(part[lev], list)` when slot `lev` is occupied. -/
def mergeStep (acc : List SramReserve) (op : Option (List SramReserve)) :
    List SramReserve :=
  match op with
  | none => acc
  | some p => lmerge (p.length + acc.length) p acc

/-- The final pass of `list_sort`: merge every pending sublist into the
accumulated result, lowest slot first (the `max_lev` slot, which comes
last, is folded in by the same merge, matching
`merge_and_restore_back_links`). -/
def mergeAll (parts : List (Option (List SramReserve))) : List SramReserve :=
  parts.foldl mergeStep []

/-- Feeding one block into the pending array (`cur` is a singleton run). -/
def pendStep (parts : List (Option (List SramReserve))) (x : SramReserve) :
    List (Option (List SramReserve)) :=
  addPending parts [x]

/-- Embedding of `list_sort(NULL, &reserve_list, sram_reserve_cmp)`: the
bottom-up binomial merge sort of `lib/list_sort.c` over the comparator
order `le_blk`. -/
def sramSort (l : List SramReserve) : List SramReserve :=
  mergeAll (l.foldl pendStep [])

/-- Embedding of the child-resource loop's bounds validation, performed on
the untruncated resource values before anything is stored into the u32
block fields: each reserved block must satisfy
`child_res.start >= res->start` (automatic for region-relative `Nat`
offsets) and `child_res.end <= res->end`, i.e. `start + size ≤ R`.  The
first violation aborts with the out-of-bounds diagnostic before any later
processing. -/
def checkBounds (R : Nat) : List SramReserve → Except SramError (List SramReserve)
  | [] => .ok []
  | r :: l =>
    if r.start + r.size ≤ R then (checkBounds R l).map (fun l2 => r :: l2)
    else .error .outOfBounds

/-- Embedding of the `list_for_each_entry` gap scan: `cur` is `cur_start`,
`acc` the chunks registered so far.  A block starting before the cursor is
the overlap rejection; a block starting at the cursor advances it; a block
starting beyond the cursor first registers the free chunk
`{cur_start, block->start - cur_start}`.  The cursor update
`cur_start = block->start + block->size` adds two u32 values in 32-bit
arithmetic, so it wraps mod `2^32`. -/
def gapScan : Nat → List SramReserve → List FreeSpan → Except SramError (Nat × List FreeSpan)
  | cur, [], acc => .ok (cur, acc)
  | cur, b :: rest, acc =>
    if b.start < cur then .error .overlapDetected
    else if b.start = cur then gapScan ((b.start + b.size) % 2 ^ 32) rest acc
    else gapScan ((b.start + b.size) % 2 ^ 32) rest (acc ++ [⟨cur, b.start - cur⟩])

/-- The truncation performed by storing the validated child resource into
the u32 fields `block->start` and `block->size`. -/
def truncBlock (r : SramReserve) : SramReserve :=
  ⟨r.start % 2 ^ 32, r.size % 2 ^ 32⟩

/-- The synthetic end marker `rblocks[nblocks - 1] = {size, 0}` appended
after the reserved blocks; the assignment truncates the `unsigned long`
region size into the u32 `start` field. -/
def sentinel (R : Nat) : SramReserve := ⟨R % 2 ^ 32, 0⟩

/-- Embedding of `sram_reserve_regions` for a region of extent `R`: validate
each externally supplied reservation against the untruncated resource
bounds, store the survivors into u32 block fields, append the sentinel,
sort with `list_sort` over the comparator, then scan gaps from cursor `0`.
On success the emitted free spans are the chunks handed to
`gen_pool_add_virt` (whose own failure is an external-collaborator
condition, not modelled). -/
def sram_reserve_regions (R : Nat) (resv : List SramReserve) :
    Except SramError (List FreeSpan) :=
  match checkBounds R resv with
  | .error e => .error e
  | .ok blocks =>
    (gapScan 0 (sramSort (blocks.map truncBlock ++ [sentinel R])) []).map (fun p => p.2)

/-- Count of the reserved intervals of `l` whose range `[start, start+size)`
contains the offset `x`. -/
def covCount (l : List SramReserve) (x : Nat) : Nat :=
  l.countP (fun r => decide (r.start ≤ x ∧ x < r.start + r.size))

/-- Count of the free spans of `l` whose range contains the offset `x`. -/
def spanCount (l : List FreeSpan) (x : Nat) : Nat :=
  l.countP (fun s => decide (s.start ≤ x ∧ x < s.start + s.size))

/-- Decidable test that two reserved ranges have a nonempty intersection. -/
def rangesIntersect (a b : SramReserve) : Bool :=
  decide (max a.start b.start < min (a.start + a.size) (b.start + b.size))

/-- Abstract state of the external `gen_pool`: total capacity
(`gen_pool_size`) and available capacity (`gen_pool_avail`). -/
structure GenPool where
  size : Nat
  avail : Nat
deriving DecidableEq

/-- Device state seen by `sram_remove`: the pool plus the optional clock
(`sram->clk`, NULL iff `clkPresent = false`) and whether it is enabled. -/
structure SramDev where
  pool : GenPool
  clkPresent : Bool
  clkEnabled : Bool
deriving DecidableEq

/-- Embedding of `sram_remove`: returns the function's return value, whether
the outstanding-allocation diagnostic fired
(`gen_pool_avail < gen_pool_size`), and the post-teardown device state
(clock disabled via `clk_disable_unprepare` when present).  The devm-managed
resources are released by the driver core and are outside this function. -/
def sram_remove (s : SramDev) : Int × Bool × SramDev :=
  (0, decide (s.pool.avail < s.pool.size),
    if s.clkPresent then { s with clkEnabled := false } else s)

/-- Concatenation of the occupied pending slots, used to reason about the
sort's element multiset. -/
def pflat : List (Option (List SramReserve)) → List SramReserve
  | [] => []
  | none :: rest => pflat rest
  | some p :: rest => p ++ pflat rest

/-- Ordering of blocks by their start offset, the order `list_sort` is meant
to establish. -/
abbrev startLe (a b : SramReserve) : Prop := a.start ≤ b.start

/-- A run of blocks whose starts are all below `2^31` (where the comparator
is a correct total preorder) and which is sorted by start. -/
def goodList (p : List SramReserve) : Prop :=
  (∀ x ∈ p, x.start < 2 ^ 31) ∧ p.Pairwise startLe

end Sram

deriving instance DecidableEq for Except

namespace Sram

/-- Sign analysis of `sram_reserve_cmp` on u32 start values whose difference
fits in a signed 32-bit int: there the truncated subtraction has the sign of
the true comparison. -/
lemma cmp_sign_spec (a b : SramReserve) (ha : a.start < 2 ^ 32) (hb : b.start < 2 ^ 32)
    (hd1 : a.start ≤ b.start → b.start - a.start < 2 ^ 31)
    (hd2 : b.start ≤ a.start → a.start - b.start < 2 ^ 31) :
    (sram_reserve_cmp a b < 0 ↔ a.start < b.start) ∧
    (sram_reserve_cmp a b = 0 ↔ a.start = b.start) ∧
    (0 < sram_reserve_cmp a b ↔ b.start < a.start) := by
  rcases Nat.lt_trichotomy a.start b.start with h | h | h
  · have hlt : b.start - a.start < 2 ^ 31 := hd1 (Nat.le_of_lt h)
    have hu : u32sub a.start b.start = 2 ^ 32 - (b.start - a.start) := by
      unfold u32sub; omega
    have hv : sram_reserve_cmp a b = ((2 ^ 32 - (b.start - a.start) : Nat) : Int) - 2 ^ 32 := by
      unfold sram_reserve_cmp toInt32
      rw [hu, Nat.mod_eq_of_lt (by omega), if_neg (by omega)]
      omega
    rw [hv]
    omega
  · have hu : u32sub a.start b.start = 0 := by
      unfold u32sub; omega
    have hv : sram_reserve_cmp a b = 0 := by
      unfold sram_reserve_cmp toInt32
      rw [hu]
      norm_num
    rw [hv]
    omega
  · have hlt : a.start - b.start < 2 ^ 31 := hd2 (Nat.le_of_lt h)
    have hu : u32sub a.start b.start = a.start - b.start := by
      unfold u32sub; omega
    have hv : sram_reserve_cmp a b = ((a.start - b.start : Nat) : Int) := by
      unfold sram_reserve_cmp toInt32
      rw [hu, Nat.mod_eq_of_lt (by omega), if_pos (by omega)]
      omega
    rw [hv]
    omega

/-- Below `2^31` the comparator order agrees with the start order. -/
lemma le_blk_iff (a b : SramReserve) (ha : a.start < 2 ^ 31) (hb : b.start < 2 ^ 31) :
    le_blk a b = true ↔ a.start ≤ b.start := by
  obtain ⟨h1, h2, h3⟩ :=
    cmp_sign_spec a b (by omega) (by omega) (fun _ => by omega) (fun _ => by omega)
  simp only [le_blk, decide_eq_true_eq]
  omega

lemma lmerge_perm : ∀ (fuel : Nat) (a b : List SramReserve),
    (lmerge fuel a b).Perm (a ++ b) := by
  intro fuel
  induction fuel with
  | zero =>
    intro a b
    simp [lmerge]
  | succ n ih =>
    intro a b
    cases a with
    | nil => simp [lmerge]
    | cons x as =>
      cases b with
      | nil => simp [lmerge]
      | cons y bs =>
        simp only [lmerge]
        by_cases h : le_blk x y
        · rw [if_pos h]
          exact (ih as (y :: bs)).cons x
        · rw [if_neg h]
          exact ((ih (x :: as) bs).cons y).trans List.perm_middle.symm

lemma lmerge_sorted : ∀ (fuel : Nat) (a b : List SramReserve),
    a.length + b.length ≤ fuel →
    (∀ x ∈ a, x.start < 2 ^ 31) → (∀ x ∈ b, x.start < 2 ^ 31) →
    a.Pairwise startLe → b.Pairwise startLe →
    (lmerge fuel a b).Pairwise startLe := by
  intro fuel
  induction fuel with
  | zero =>
    intro a b hlen _ _ _ _
    have ha : a = [] := List.length_eq_zero.mp (by omega)
    have hb : b = [] := List.length_eq_zero.mp (by omega)
    subst ha
    subst hb
    simp [lmerge]
  | succ n ih =>
    intro a b hlen hsa hsb hpa hpb
    cases a with
    | nil => simpa [lmerge] using hpb
    | cons x as =>
      cases b with
      | nil => simpa [lmerge] using hpa
      | cons y bs =>
        simp only [lmerge]
        obtain ⟨hxas, hpas⟩ := List.pairwise_cons.mp hpa
        obtain ⟨hybs, hpbs⟩ := List.pairwise_cons.mp hpb
        have hx : x.start < 2 ^ 31 := hsa x (List.mem_cons_self x as)
        have hy : y.start < 2 ^ 31 := hsb y (List.mem_cons_self y bs)
        by_cases h : le_blk x y
        · rw [if_pos h]
          have hxy : x.start ≤ y.start := (le_blk_iff x y hx hy).mp h
          rw [List.pairwise_cons]
          constructor
          · intro z hz
            have hz' := (lmerge_perm n as (y :: bs)).mem_iff.mp hz
            rcases List.mem_append.mp hz' with hz1 | hz1
            · exact hxas z hz1
            · rcases List.mem_cons.mp hz1 with rfl | hz2
              · exact hxy
              · exact le_trans hxy (hybs z hz2)
          · exact ih as (y :: bs) (by simp only [List.length_cons] at hlen ⊢; omega)
              (fun z hz => hsa z (List.mem_cons_of_mem x hz)) hsb hpas hpb
        · rw [if_neg h]
          have hyx : y.start ≤ x.start := by
            have hn : ¬ x.start ≤ y.start := fun hle => h ((le_blk_iff x y hx hy).mpr hle)
            omega
          rw [List.pairwise_cons]
          constructor
          · intro z hz
            have hz' := (lmerge_perm n (x :: as) bs).mem_iff.mp hz
            rcases List.mem_append.mp hz' with hz1 | hz1
            · rcases List.mem_cons.mp hz1 with rfl | hz2
              · exact hyx
              · exact le_trans hyx (hxas z hz2)
            · exact hybs z hz1
          · exact ih (x :: as) bs (by simp only [List.length_cons] at hlen ⊢; omega)
              hsa (fun z hz => hsb z (List.mem_cons_of_mem y hz)) hpa hpbs

lemma addPending_perm : ∀ (parts : List (Option (List SramReserve)))
    (cur : List SramReserve),
    (pflat (addPending parts cur)).Perm (cur ++ pflat parts) := by
  intro parts
  induction parts with
  | nil =>
    intro cur
    show (cur ++ pflat []).Perm (cur ++ pflat [])
    exact List.Perm.refl _
  | cons op rest ih =>
    intro cur
    cases op with
    | none =>
      show (cur ++ pflat rest).Perm (cur ++ pflat rest)
      exact List.Perm.refl _
    | some p =>
      show (pflat (addPending rest (lmerge (p.length + cur.length) p cur))).Perm
        (cur ++ (p ++ pflat rest))
      refine (ih _).trans ?_
      refine ((lmerge_perm _ p cur).append_right (pflat rest)).trans ?_
      have h1 : (p ++ cur) ++ pflat rest = p ++ (cur ++ pflat rest) := by
        rw [List.append_assoc]
      rw [h1]
      refine ((@List.perm_append_comm _ p (cur ++ pflat rest))).trans ?_
      have h2 : (cur ++ pflat rest) ++ p = cur ++ (pflat rest ++ p) := by
        rw [List.append_assoc]
      rw [h2]
      exact (@List.perm_append_comm _ (pflat rest) p).append_left cur

lemma foldl_pendStep_perm : ∀ (l : List SramReserve)
    (parts : List (Option (List SramReserve))),
    (pflat (l.foldl pendStep parts)).Perm (pflat parts ++ l) := by
  intro l
  induction l with
  | nil =>
    intro parts
    simp
  | cons x t ih =>
    intro parts
    rw [List.foldl_cons]
    refine (ih (pendStep parts x)).trans ?_
    refine ((addPending_perm parts [x]).append_right t).trans ?_
    have h := @List.perm_middle _ x (pflat parts) t
    simpa using h.symm

lemma foldl_mergeStep_perm : ∀ (parts : List (Option (List SramReserve)))
    (acc : List SramReserve),
    (parts.foldl mergeStep acc).Perm (pflat parts ++ acc) := by
  intro parts
  induction parts with
  | nil =>
    intro acc
    exact List.Perm.refl acc
  | cons op rest ih =>
    intro acc
    rw [List.foldl_cons]
    cases op with
    | none =>
      show (rest.foldl mergeStep acc).Perm (pflat rest ++ acc)
      exact ih acc
    | some p =>
      show (rest.foldl mergeStep (lmerge (p.length + acc.length) p acc)).Perm
        ((p ++ pflat rest) ++ acc)
      refine (ih _).trans ?_
      refine ((lmerge_perm _ p acc).append_left (pflat rest)).trans ?_
      have h1 : pflat rest ++ (p ++ acc) = (pflat rest ++ p) ++ acc := by
        rw [List.append_assoc]
      rw [h1]
      exact (@List.perm_append_comm _ (pflat rest) p).append_right acc

lemma sramSort_perm (l : List SramReserve) : (sramSort l).Perm l := by
  unfold sramSort mergeAll
  refine (foldl_mergeStep_perm _ []).trans ?_
  rw [List.append_nil]
  refine (foldl_pendStep_perm l []).trans ?_
  exact List.Perm.refl l

lemma goodList_lmerge (p q : List SramReserve) (hp : goodList p) (hq : goodList q) :
    goodList (lmerge (p.length + q.length) p q) := by
  constructor
  · intro x hx
    have hx' := (lmerge_perm _ p q).mem_iff.mp hx
    rcases List.mem_append.mp hx' with h | h
    · exact hp.1 x h
    · exact hq.1 x h
  · exact lmerge_sorted _ p q (le_refl _) hp.1 hq.1 hp.2 hq.2

lemma addPending_good : ∀ (parts : List (Option (List SramReserve)))
    (cur : List SramReserve),
    (∀ p, some p ∈ parts → goodList p) → goodList cur →
    ∀ p, some p ∈ addPending parts cur → goodList p := by
  intro parts
  induction parts with
  | nil =>
    intro cur _ hcur p hp
    have : some p = some cur := by simpa [addPending] using hp
    obtain rfl : p = cur := Option.some.inj this
    exact hcur
  | cons op rest ih =>
    intro cur hparts hcur p hp
    cases op with
    | none =>
      simp only [addPending] at hp
      rcases List.mem_cons.mp hp with h | h
      · obtain rfl : p = cur := Option.some.inj h
        exact hcur
      · exact hparts p (List.mem_cons_of_mem _ h)
    | some q =>
      simp only [addPending] at hp
      rcases List.mem_cons.mp hp with h | h
      · exact absurd h (by simp)
      · have hq := hparts q (List.mem_cons_self _ _)
        exact ih _ (fun r hr => hparts r (List.mem_cons_of_mem _ hr))
          (goodList_lmerge q cur hq hcur) p h

lemma foldl_pendStep_good : ∀ (l : List SramReserve)
    (parts : List (Option (List SramReserve))),
    (∀ x ∈ l, x.start < 2 ^ 31) →
    (∀ p, some p ∈ parts → goodList p) →
    ∀ p, some p ∈ l.foldl pendStep parts → goodList p := by
  intro l
  induction l with
  | nil =>
    intro parts _ hparts p hp
    exact hparts p hp
  | cons x t ih =>
    intro parts hl hparts p hp
    rw [List.foldl_cons] at hp
    refine ih (pendStep parts x) (fun z hz => hl z (List.mem_cons_of_mem x hz)) ?_ p hp
    intro q hq
    refine addPending_good parts [x] hparts ?_ q hq
    constructor
    · intro z hz
      have : z = x := by simpa using hz
      subst this
      exact hl z (List.mem_cons_self _ _)
    · simp

lemma foldl_mergeStep_good : ∀ (parts : List (Option (List SramReserve)))
    (acc : List SramReserve),
    (∀ p, some p ∈ parts → goodList p) → goodList acc →
    goodList (parts.foldl mergeStep acc) := by
  intro parts
  induction parts with
  | nil =>
    intro acc _ hacc
    exact hacc
  | cons op rest ih =>
    intro acc hparts hacc
    rw [List.foldl_cons]
    cases op with
    | none =>
      exact ih acc (fun p hp => hparts p (List.mem_cons_of_mem _ hp)) hacc
    | some p =>
      refine ih _ (fun q hq => hparts q (List.mem_cons_of_mem _ hq)) ?_
      exact goodList_lmerge p acc (hparts p (List.mem_cons_self _ _)) hacc

lemma pairwise_sramSort (l : List SramReserve) (hl : ∀ x ∈ l, x.start < 2 ^ 31) :
    (sramSort l).Pairwise startLe := by
  unfold sramSort mergeAll
  refine (foldl_mergeStep_good _ [] ?_ ?_).2
  · exact foldl_pendStep_good l [] hl (by simp)
  · exact ⟨by simp, by simp⟩

/-- Two sorted permutations of the same blocks agree whenever equal start
offsets force equal blocks. -/
lemma sorted_key_eq (m₁ m₂ : List SramReserve) (hp : m₁.Perm m₂)
    (hs₁ : m₁.Pairwise startLe) (hs₂ : m₂.Pairwise startLe)
    (hkey : ∀ u ∈ m₁, ∀ v ∈ m₁, u.start = v.start → u = v) : m₁ = m₂ := by
  have anti : IsAntisymm SramReserve (fun u v => u.start < v.start ∨ u = v) := by
    constructor
    intro u v huv hvu
    rcases huv with h1 | h1
    · rcases hvu with h2 | h2
      · omega
      · exact h2.symm
    · exact h1
  have hkey₂ : ∀ u ∈ m₂, ∀ v ∈ m₂, u.start = v.start → u = v := fun u hu v hv =>
    hkey u (hp.mem_iff.mpr hu) v (hp.mem_iff.mpr hv)
  have hs₁' : List.Sorted (fun u v => u.start < v.start ∨ u = v) m₁ := by
    refine hs₁.imp_of_mem ?_
    intro u v hu hv huv
    have huv' : u.start ≤ v.start := huv
    rcases Nat.lt_or_ge u.start v.start with h | h
    · exact Or.inl h
    · exact Or.inr (hkey u hu v hv (by omega))
  have hs₂' : List.Sorted (fun u v => u.start < v.start ∨ u = v) m₂ := by
    refine hs₂.imp_of_mem ?_
    intro u v hu hv huv
    have huv' : u.start ≤ v.start := huv
    rcases Nat.lt_or_ge u.start v.start with h | h
    · exact Or.inl h
    · exact Or.inr (hkey₂ u hu v hv (by omega))
  exact @List.eq_of_perm_of_sorted _ _ anti _ _ hp hs₁' hs₂'

lemma sentinel_eq_of_lt (R : Nat) (hR : R < 2 ^ 32) : sentinel R = ⟨R, 0⟩ := by
  simp only [sentinel, SramReserve.mk.injEq]
  exact ⟨Nat.mod_eq_of_lt hR, trivial⟩

/-- A block whose start already sits at the region end of a u32-sized region
and which passes the bounds check can only be the sentinel itself. -/
lemma eq_sentinel_of_start_eq (R : Nat) (u : SramReserve) (hR : R < 2 ^ 32)
    (hu : u.start + u.size ≤ R) (hs : u.start = R) : u = sentinel R := by
  rw [sentinel_eq_of_lt R hR]
  cases u with
  | mk s z =>
    simp only [SramReserve.mk.injEq]
    simp only at hu hs
    omega

lemma map_truncBlock_id (l : List SramReserve)
    (h : ∀ r ∈ l, r.start < 2 ^ 32 ∧ r.size < 2 ^ 32) : l.map truncBlock = l := by
  induction l with
  | nil => rfl
  | cons r t ih =>
    have h1 := (h r (List.mem_cons_self r t)).1
    have h2 := (h r (List.mem_cons_self r t)).2
    have hr : truncBlock r = r := by
      cases r with
      | mk s z =>
        simp only [truncBlock, SramReserve.mk.injEq]
        simp only at h1 h2
        omega
    rw [List.map_cons, hr, ih (fun x hx => h x (List.mem_cons_of_mem r hx))]

lemma covCount_nil (x : Nat) : covCount [] x = 0 := rfl

lemma covCount_cons (r : SramReserve) (l : List SramReserve) (x : Nat) :
    covCount (r :: l) x =
      covCount l x + (if r.start ≤ x ∧ x < r.start + r.size then 1 else 0) := by
  simp [covCount, List.countP_cons]

lemma covCount_append (l₁ l₂ : List SramReserve) (x : Nat) :
    covCount (l₁ ++ l₂) x = covCount l₁ x + covCount l₂ x := by
  simp [covCount, List.countP_append]

lemma covCount_eq_zero (l : List SramReserve) (x : Nat)
    (h : ∀ r ∈ l, ¬(r.start ≤ x ∧ x < r.start + r.size)) : covCount l x = 0 := by
  rw [covCount, List.countP_eq_zero]
  intro r hr
  simpa using h r hr

lemma covCount_pos (l : List SramReserve) (x : Nat) (r : SramReserve) (hr : r ∈ l)
    (h : r.start ≤ x ∧ x < r.start + r.size) : 1 ≤ covCount l x := by
  rw [covCount]
  exact List.countP_pos_iff.mpr ⟨r, hr, by simpa using h⟩

lemma spanCount_nil (x : Nat) : spanCount [] x = 0 := rfl

lemma spanCount_cons (s : FreeSpan) (l : List FreeSpan) (x : Nat) :
    spanCount (s :: l) x =
      spanCount l x + (if s.start ≤ x ∧ x < s.start + s.size then 1 else 0) := by
  simp [spanCount, List.countP_cons]

lemma spanCount_cons_mk (a b' : Nat) (l : List FreeSpan) (x : Nat) :
    spanCount (⟨a, b'⟩ :: l) x = spanCount l x + (if a ≤ x ∧ x < a + b' then 1 else 0) := by
  simp [spanCount, List.countP_cons]

lemma spanCount_eq_zero (l : List FreeSpan) (x : Nat)
    (h : ∀ s ∈ l, ¬(s.start ≤ x ∧ x < s.start + s.size)) : spanCount l x = 0 := by
  rw [spanCount, List.countP_eq_zero]
  intro s hs
  simpa using h s hs

lemma spanCount_pos (l : List FreeSpan) (x : Nat) (s : FreeSpan) (hs : s ∈ l)
    (h : s.start ≤ x ∧ x < s.start + s.size) : 1 ≤ spanCount l x := by
  rw [spanCount]
  exact List.countP_pos_iff.mpr ⟨s, hs, by simpa using h⟩

lemma spanCount_exists (l : List FreeSpan) (x : Nat) (h : 0 < spanCount l x) :
    ∃ s ∈ l, s.start ≤ x ∧ x < s.start + s.size := by
  rw [spanCount] at h
  obtain ⟨s, hs, hp⟩ := List.countP_pos_iff.mp h
  exact ⟨s, hs, by simpa using hp⟩

lemma checkBounds_ok_of (R : Nat) (l : List SramReserve)
    (h : ∀ r ∈ l, r.start + r.size ≤ R) : checkBounds R l = .ok l := by
  induction l with
  | nil => rfl
  | cons r t ih =>
    rw [checkBounds, if_pos (h r (List.mem_cons_self r t)),
      ih (fun x hx => h x (List.mem_cons_of_mem r hx))]
    rfl

lemma checkBounds_ok_elim (R : Nat) (l l' : List SramReserve)
    (h : checkBounds R l = .ok l') : l' = l ∧ ∀ r ∈ l, r.start + r.size ≤ R := by
  induction l generalizing l' with
  | nil =>
    simp only [checkBounds, Except.ok.injEq] at h
    simp [← h]
  | cons r t ih =>
    rw [checkBounds] at h
    by_cases hr : r.start + r.size ≤ R
    · rw [if_pos hr] at h
      cases hcb : checkBounds R t with
      | error e => rw [hcb] at h; simp [Except.map] at h
      | ok t' =>
        rw [hcb] at h
        simp only [Except.map, Except.ok.injEq] at h
        obtain ⟨ht', hbt⟩ := ih t' hcb
        subst ht'
        constructor
        · exact h.symm
        · intro x hx
          rcases List.mem_cons.mp hx with rfl | hx'
          · exact hr
          · exact hbt x hx'
    · rw [if_neg hr] at h
      simp at h

lemma checkBounds_err (R : Nat) (l : List SramReserve)
    (h : ∃ r ∈ l, R < r.start + r.size) : checkBounds R l = .error .outOfBounds := by
  induction l with
  | nil => simp at h
  | cons r t ih =>
    rw [checkBounds]
    by_cases hr : r.start + r.size ≤ R
    · rw [if_pos hr]
      have ht : ∃ x ∈ t, R < x.start + x.size := by
        rcases h with ⟨x, hx, hxb⟩
        rcases List.mem_cons.mp hx with rfl | hx'
        · omega
        · exact ⟨x, hx', hxb⟩
      rw [ih ht]
      rfl
    · rw [if_neg hr]

lemma gapScan_append (blocks : List SramReserve) :
    ∀ (cur : Nat) (acc : List FreeSpan),
    gapScan cur blocks acc = (gapScan cur blocks []).map (fun p => (p.1, acc ++ p.2)) := by
  induction blocks with
  | nil =>
    intro cur acc
    simp [gapScan, Except.map]
  | cons b rest ih =>
    intro cur acc
    simp only [gapScan]
    split_ifs with h1 h2
    · simp [Except.map]
    · exact ih _ acc
    · rw [List.nil_append]
      conv_lhs => rw [ih]
      conv_rhs => rw [ih]
      cases hbase : gapScan ((b.start + b.size) % 2 ^ 32) rest [] with
      | error e => simp [Except.map]
      | ok p => simp [Except.map]

lemma gapScan_error (blocks : List SramReserve) :
    ∀ (cur : Nat) (acc : List FreeSpan) (e : SramError),
    gapScan cur blocks acc = .error e → e = .overlapDetected := by
  induction blocks with
  | nil =>
    intro cur acc e h
    simp [gapScan] at h
  | cons b rest ih =>
    intro cur acc e h
    simp only [gapScan] at h
    split_ifs at h with h1 h2
    · exact (Except.error.inj h).symm
    · exact ih _ _ _ h
    · exact ih _ _ _ h

lemma gapScan_mono (blocks : List SramReserve) :
    ∀ (cur : Nat) (acc : List FreeSpan) (c' : Nat) (sp : List FreeSpan),
    (∀ b ∈ blocks, b.start + b.size < 2 ^ 32) →
    gapScan cur blocks acc = .ok (c', sp) → cur ≤ c' := by
  induction blocks with
  | nil =>
    intro cur acc c' sp _ h
    simp only [gapScan, Except.ok.injEq, Prod.mk.injEq] at h
    omega
  | cons b rest ih =>
    intro cur acc c' sp hsm h
    simp only [gapScan] at h
    split_ifs at h with h1 h2
    · rw [Nat.mod_eq_of_lt (hsm b (List.mem_cons_self b rest))] at h
      have := ih _ _ _ _ (fun x hx => hsm x (List.mem_cons_of_mem b hx)) h
      omega
    · rw [Nat.mod_eq_of_lt (hsm b (List.mem_cons_self b rest))] at h
      have := ih _ _ _ _ (fun x hx => hsm x (List.mem_cons_of_mem b hx)) h
      omega

lemma gapScan_bound (R : Nat) (blocks : List SramReserve) :
    ∀ (cur : Nat) (acc : List FreeSpan) (c' : Nat) (sp : List FreeSpan),
    (∀ b ∈ blocks, b.start + b.size ≤ R) → cur ≤ R →
    gapScan cur blocks acc = .ok (c', sp) → c' ≤ R := by
  induction blocks with
  | nil =>
    intro cur acc c' sp hb hcur h
    simp only [gapScan, Except.ok.injEq, Prod.mk.injEq] at h
    omega
  | cons b rest ih =>
    intro cur acc c' sp hb hcur h
    simp only [gapScan] at h
    split_ifs at h with h1 h2
    · refine ih _ _ _ _ (fun x hx => hb x (List.mem_cons_of_mem b hx)) ?_ h
      have h3 := hb b (List.mem_cons_self b rest)
      have h4 := Nat.mod_le (b.start + b.size) (2 ^ 32)
      omega
    · refine ih _ _ _ _ (fun x hx => hb x (List.mem_cons_of_mem b hx)) ?_ h
      have h3 := hb b (List.mem_cons_self b rest)
      have h4 := Nat.mod_le (b.start + b.size) (2 ^ 32)
      omega

lemma gapScan_skip (cur : Nat) (b : SramReserve) (rest : List SramReserve)
    (acc : List FreeSpan) (hb : b.start = cur) :
    gapScan cur (b :: rest) acc = gapScan ((b.start + b.size) % 2 ^ 32) rest acc := by
  simp only [gapScan]
  rw [if_neg (by omega), if_pos hb]

lemma gapScan_emit (cur : Nat) (b : SramReserve) (rest : List SramReserve)
    (acc : List FreeSpan) (hb : cur < b.start) :
    gapScan cur (b :: rest) acc =
      gapScan ((b.start + b.size) % 2 ^ 32) rest (acc ++ [⟨cur, b.start - cur⟩]) := by
  simp only [gapScan]
  rw [if_neg (by omega), if_neg (by omega)]

/-- Master invariant of the gap scan started at cursor `cur` with an empty
accumulator, for blocks whose u32 end sums do not wrap (which the pipeline
guarantees for every region extent below `2^32`): on success the cursor
only advances, every block and every emitted span lies inside `[cur, c')`,
spans are nonempty and ordered, and each offset of `[cur, c')` is covered
exactly once by blocks and spans together. -/
lemma gapScan_props (blocks : List SramReserve) :
    ∀ (cur c' : Nat) (tail : List FreeSpan),
    (∀ b ∈ blocks, b.start + b.size < 2 ^ 32) →
    gapScan cur blocks [] = .ok (c', tail) →
    cur ≤ c' ∧
    (c' = cur ∨ ∃ b ∈ blocks, c' = b.start + b.size) ∧
    (∀ b ∈ blocks, cur ≤ b.start ∧ b.start + b.size ≤ c') ∧
    (∀ s ∈ tail, cur ≤ s.start ∧ 0 < s.size ∧ s.start + s.size ≤ c') ∧
    tail.Pairwise (fun s t => s.start + s.size ≤ t.start) ∧
    (∀ x, cur ≤ x → x < c' → covCount blocks x + spanCount tail x = 1) := by
  induction blocks with
  | nil =>
    intro cur c' tail _ h
    simp only [gapScan, Except.ok.injEq, Prod.mk.injEq] at h
    obtain ⟨h1, h2⟩ := h
    subst h1
    subst h2
    refine ⟨le_refl _, Or.inl rfl, by simp, by simp, by simp, ?_⟩
    intro x hx1 hx2
    omega
  | cons b rest ih =>
    intro cur c' tail hsm h
    have hsmb : b.start + b.size < 2 ^ 32 := hsm b (List.mem_cons_self b rest)
    have hsmr : ∀ x ∈ rest, x.start + x.size < 2 ^ 32 :=
      fun x hx => hsm x (List.mem_cons_of_mem b hx)
    simp only [gapScan] at h
    split_ifs at h with h1 h2
    · rw [Nat.mod_eq_of_lt hsmb] at h
      obtain ⟨hmono, hshape, hblocks, hspans, hpw, hcov⟩ := ih _ _ _ hsmr h
      refine ⟨by omega, ?_, ?_, ?_, hpw, ?_⟩
      · rcases hshape with h' | ⟨b', hb', h'⟩
        · exact Or.inr ⟨b, List.mem_cons_self b rest, by omega⟩
        · exact Or.inr ⟨b', List.mem_cons_of_mem b hb', h'⟩
      · intro b' hb'
        rcases List.mem_cons.mp hb' with rfl | hb''
        · exact ⟨by omega, by omega⟩
        · have h3 := hblocks b' hb''
          exact ⟨by omega, h3.2⟩
      · intro s hs
        have h3 := hspans s hs
        exact ⟨by omega, h3.2.1, h3.2.2⟩
      · intro x hx1 hx2
        rw [covCount_cons]
        by_cases hx3 : x < b.start + b.size
        · rw [if_pos ⟨by omega, hx3⟩]
          have hz1 : covCount rest x = 0 :=
            covCount_eq_zero _ _ (fun r hr => by have := (hblocks r hr).1; omega)
          have hz2 : spanCount tail x = 0 :=
            spanCount_eq_zero _ _ (fun s hs => by have := (hspans s hs).1; omega)
          omega
        · rw [if_neg (by omega)]
          have := hcov x (by omega) hx2
          omega
    · have hgt : cur < b.start := by omega
      rw [Nat.mod_eq_of_lt hsmb, List.nil_append, gapScan_append] at h
      cases hbase : gapScan (b.start + b.size) rest [] with
      | error e =>
        rw [hbase] at h
        simp [Except.map] at h
      | ok p =>
        rw [hbase] at h
        obtain ⟨c'', tail'⟩ := p
        simp only [Except.map, Except.ok.injEq, Prod.mk.injEq, List.singleton_append] at h
        obtain ⟨hc, htail⟩ := h
        subst hc
        subst htail
        obtain ⟨hmono, hshape, hblocks, hspans, hpw, hcov⟩ := ih _ _ _ hsmr hbase
        refine ⟨by omega, ?_, ?_, ?_, ?_, ?_⟩
        · rcases hshape with h' | ⟨b', hb', h'⟩
          · exact Or.inr ⟨b, List.mem_cons_self b rest, by omega⟩
          · exact Or.inr ⟨b', List.mem_cons_of_mem b hb', h'⟩
        · intro b' hb'
          rcases List.mem_cons.mp hb' with rfl | hb''
          · exact ⟨by omega, by omega⟩
          · have h3 := hblocks b' hb''
            exact ⟨by omega, h3.2⟩
        · intro s hs
          rcases List.mem_cons.mp hs with rfl | hs'
          · exact ⟨Nat.le_refl cur, by show 0 < b.start - cur; omega,
              by show cur + (b.start - cur) ≤ c''; omega⟩
          · have h3 := hspans s hs'
            exact ⟨by omega, h3.2.1, h3.2.2⟩
        · rw [List.pairwise_cons]
          constructor
          · intro t ht
            have h3 := hspans t ht
            show cur + (b.start - cur) ≤ t.start
            omega
          · exact hpw
        · intro x hx1 hx2
          rw [covCount_cons, spanCount_cons_mk]
          by_cases hc1 : x < b.start
          · rw [if_neg (by omega), if_pos (by omega)]
            have hz1 : covCount rest x = 0 :=
              covCount_eq_zero _ _ (fun r hr => by have := (hblocks r hr).1; omega)
            have hz2 : spanCount tail' x = 0 :=
              spanCount_eq_zero _ _ (fun s hs => by have := (hspans s hs).1; omega)
            omega
          · by_cases hc2 : x < b.start + b.size
            · rw [if_pos (by omega), if_neg (by omega)]
              have hz1 : covCount rest x = 0 :=
                covCount_eq_zero _ _ (fun r hr => by have := (hblocks r hr).1; omega)
              have hz2 : spanCount tail' x = 0 :=
                spanCount_eq_zero _ _ (fun s hs => by have := (hspans s hs).1; omega)
              omega
            · rw [if_neg (by omega), if_neg (by omega)]
              have := hcov x (by omega) hx2
              omega

lemma reserve_regions_err_eq (R : Nat) (resv : List SramReserve) (e : SramError)
    (h : checkBounds R resv = .error e) : sram_reserve_regions R resv = .error e := by
  rw [sram_reserve_regions, h]

lemma reserve_regions_ok_eq (R : Nat) (resv blocks : List SramReserve)
    (h : checkBounds R resv = .ok blocks) :
    sram_reserve_regions R resv =
      (gapScan 0 (sramSort (blocks.map truncBlock ++ [sentinel R])) []).map
        (fun p => p.2) := by
  rw [sram_reserve_regions, h]

/-- For a region extent below `2^32` the u32 end sum of every sorted block —
the in-bounds reservations and the sentinel — stays below `2^32`, so no
cursor update of the scan wraps. -/
lemma sorted_blocks_small (R : Nat) (resv : List SramReserve) (hR : R < 2 ^ 32)
    (hb : ∀ r ∈ resv, r.start + r.size ≤ R) :
    ∀ b ∈ sramSort (resv ++ [sentinel R]), b.start + b.size < 2 ^ 32 := by
  intro b hbm
  have hbm' := (sramSort_perm _).mem_iff.mp hbm
  rcases List.mem_append.mp hbm' with h' | h'
  · have := hb b h'
    omega
  · have hbs : b = sentinel R := by simpa using h'
    subst hbs
    simp only [sentinel]
    omega

/-- Successful initialization of a region whose extent fits the u32 fields
means all reservations passed the bounds check, their truncation is the
identity, and the gap scan over the sorted sentinel-terminated list ended
exactly at the region end `R` with the emitted spans. -/
lemma reserve_regions_ok_elim (R : Nat) (resv : List SramReserve) (spans : List FreeSpan)
    (hR : R < 2 ^ 32) (h : sram_reserve_regions R resv = .ok spans) :
    (∀ r ∈ resv, r.start + r.size ≤ R) ∧
    gapScan 0 (sramSort (resv ++ [sentinel R])) [] = .ok (R, spans) := by
  cases hcb : checkBounds R resv with
  | error e =>
    rw [reserve_regions_err_eq R resv e hcb] at h
    exact absurd h (by simp)
  | ok blocks =>
    obtain ⟨hbl, hb⟩ := checkBounds_ok_elim R resv blocks hcb
    have hid : blocks.map truncBlock = resv := by
      rw [hbl]
      exact map_truncBlock_id resv (fun r hr => by have := hb r hr; omega)
    rw [reserve_regions_ok_eq R resv blocks hcb, hid] at h
    have hsm := sorted_blocks_small R resv hR hb
    cases hg : gapScan 0 (sramSort (resv ++ [sentinel R])) [] with
    | error e =>
      rw [hg] at h
      simp [Except.map] at h
    | ok p =>
      rw [hg] at h
      obtain ⟨c', sp⟩ := p
      simp only [Except.map, Except.ok.injEq] at h
      subst h
      obtain ⟨hmono, hshape, hblocks, _, _, _⟩ := gapScan_props _ _ _ _ hsm hg
      have hsent : sentinel R ∈ sramSort (resv ++ [sentinel R]) :=
        (sramSort_perm _).mem_iff.mpr (List.mem_append_right _ (List.mem_singleton_self _))
      have hR1 : R ≤ c' := by
        have h4 := (hblocks _ hsent).2
        simp only [sentinel] at h4
        omega
      have hR2 : c' ≤ R := by
        rcases hshape with h' | ⟨b', hb', hc⟩
        · omega
        · have hb'' := (sramSort_perm _).mem_iff.mp hb'
          rcases List.mem_append.mp hb'' with hbr | hbs
          · have := hb _ hbr
            omega
          · have hbs' : b' = sentinel R := by simpa using hbs
            subst hbs'
            simp only [sentinel] at hc
            omega
      have hcR : c' = R := le_antisymm hR2 hR1
      subst hcR
      exact ⟨hb, rfl⟩

/-- Partition property for regions whose extent fits the u32 fields: on
success every offset of the region is covered by exactly one reservation or
exactly one emitted free span. -/
lemma sram_partition (R : Nat) (resv : List SramReserve) (spans : List FreeSpan)
    (hR : R < 2 ^ 32) (h : sram_reserve_regions R resv = .ok spans) :
    ∀ x, x < R → covCount resv x + spanCount spans x = 1 := by
  obtain ⟨hb, hg⟩ := reserve_regions_ok_elim R resv spans hR h
  intro x hx
  obtain ⟨_, _, _, _, _, hcov⟩ :=
    gapScan_props _ _ _ _ (sorted_blocks_small R resv hR hb) hg
  have h1 := hcov x (Nat.zero_le x) hx
  have h2 : covCount (sramSort (resv ++ [sentinel R])) x = covCount resv x := by
    rw [covCount, List.Perm.countP_eq _ (sramSort_perm _), ← covCount, covCount_append]
    have h3 : covCount [sentinel R] x = 0 := by
      apply covCount_eq_zero
      intro r hr
      have hr' : r = sentinel R := by simpa using hr
      subst hr'
      simp [sentinel]
    omega
  omega

lemma reserve_spans_props (R : Nat) (resv : List SramReserve) (spans : List FreeSpan)
    (hR : R < 2 ^ 32) (h : sram_reserve_regions R resv = .ok spans) :
    (∀ s ∈ spans, 0 < s.size ∧ s.start + s.size ≤ R) ∧
    spans.Pairwise (fun s t => s.start + s.size ≤ t.start) := by
  obtain ⟨hb, hg⟩ := reserve_regions_ok_elim R resv spans hR h
  obtain ⟨_, _, _, hspans, hpw, _⟩ :=
    gapScan_props _ _ _ _ (sorted_blocks_small R resv hR hb) hg
  exact ⟨fun s hs => ⟨(hspans s hs).2.1, (hspans s hs).2.2⟩, hpw⟩

lemma reserve_oob (R : Nat) (resv : List SramReserve)
    (h : ∃ r ∈ resv, R < r.start + r.size) :
    sram_reserve_regions R resv = .error .outOfBounds := by
  rw [sram_reserve_regions, checkBounds_err R resv h]

/-- Once the bounds check passes, the only possible failure of
initialization is the overlap rejection of the scan. -/
lemma reserve_err_of_bounds_ok (R : Nat) (resv : List SramReserve) (e : SramError)
    (hb : ∀ r ∈ resv, r.start + r.size ≤ R)
    (h : sram_reserve_regions R resv = .error e) : e = .overlapDetected := by
  rw [reserve_regions_ok_eq R resv resv (checkBounds_ok_of R resv hb)] at h
  cases hg : gapScan 0 (sramSort (resv.map truncBlock ++ [sentinel R])) [] with
  | error e' =>
    rw [hg] at h
    simp only [Except.map, Except.error.injEq] at h
    rw [← h]
    exact gapScan_error _ _ _ _ hg
  | ok p =>
    rw [hg] at h
    simp [Except.map] at h

/-- Any in-bounds reservation list of a u32-sized region containing two
reservations with intersecting ranges is rejected by the scan with the
overlap diagnostic. -/
lemma reserve_overlap (R : Nat) (l₁ l₂ l₃ : List SramReserve) (a b : SramReserve)
    (hR : R < 2 ^ 32)
    (hb : ∀ r ∈ l₁ ++ a :: l₂ ++ b :: l₃, r.start + r.size ≤ R)
    (hab : rangesIntersect a b = true) :
    sram_reserve_regions R (l₁ ++ a :: l₂ ++ b :: l₃) = .error .overlapDetected := by
  have hint : max a.start b.start < min (a.start + a.size) (b.start + b.size) := by
    simpa [rangesIntersect] using hab
  have hx₀R : max a.start b.start < R := by
    have ha' : a.start + a.size ≤ R := hb a (by simp)
    omega
  cases hres : sram_reserve_regions R (l₁ ++ a :: l₂ ++ b :: l₃) with
  | error e =>
    have he := reserve_err_of_bounds_ok R _ e hb hres
    rw [he]
  | ok spans =>
    exfalso
    have hpart := sram_partition R _ spans hR hres (max a.start b.start) hx₀R
    have hexp : 2 ≤ covCount (l₁ ++ a :: l₂ ++ b :: l₃) (max a.start b.start) := by
      rw [covCount_append, covCount_cons, covCount_append, covCount_cons]
      rw [if_pos ⟨by omega, by omega⟩, if_pos ⟨by omega, by omega⟩]
      omega
    omega

lemma pairwise_start_le_getLast (l : List SramReserve) :
    ∀ (y : SramReserve), l.Pairwise startLe → l.getLast? = some y →
    ∀ x ∈ l, x.start ≤ y.start := by
  induction l with
  | nil =>
    intro y _ hy
    simp at hy
  | cons a t ih =>
    intro y h hy x hx
    obtain ⟨hat, ht⟩ := List.pairwise_cons.mp h
    cases t with
    | nil =>
      simp only [List.getLast?_singleton, Option.some.injEq] at hy
      subst hy
      have hxa : x = a := by simpa using hx
      subst hxa
      exact Nat.le_refl _
    | cons b t' =>
      rw [List.getLast?_cons_cons] at hy
      rcases List.mem_cons.mp hx with rfl | hx'
      · exact hat y (List.mem_of_getLast?_eq_some hy)
      · exact ih y ht hy x hx'

/-- For an in-bounds reservation list of a region whose extent is below
`2^31`, the sentinel ends up last in the sorted block list. -/
lemma sentinel_last (R : Nat) (resv : List SramReserve) (hR : R < 2 ^ 31)
    (hb : ∀ r ∈ resv, r.start + r.size ≤ R) :
    (sramSort (resv ++ [sentinel R])).getLast? = some (sentinel R) := by
  have hR32 : R < 2 ^ 32 := by omega
  have hperm : (sramSort (resv ++ [sentinel R])).Perm (resv ++ [sentinel R]) :=
    sramSort_perm _
  have hne : sramSort (resv ++ [sentinel R]) ≠ [] := by
    intro hnil
    have hlen := hperm.length_eq
    rw [hnil] at hlen
    simp at hlen
  have hy : (sramSort (resv ++ [sentinel R])).getLast? =
      some ((sramSort (resv ++ [sentinel R])).getLast hne) :=
    List.getLast?_eq_getLast _ hne
  have hsmall : ∀ x ∈ resv ++ [sentinel R], x.start < 2 ^ 31 := by
    intro x hx
    rcases List.mem_append.mp hx with h' | h'
    · have := hb x h'
      omega
    · have hx' : x = sentinel R := by simpa using h'
      subst hx'
      simp only [sentinel]
      omega
  have hsorted := pairwise_sramSort (resv ++ [sentinel R]) hsmall
  set y := (sramSort (resv ++ [sentinel R])).getLast hne with hydef
  have hymem : y ∈ resv ++ [sentinel R] := hperm.mem_iff.mp (List.getLast_mem hne)
  have hsent_mem : sentinel R ∈ sramSort (resv ++ [sentinel R]) :=
    hperm.mem_iff.mpr (List.mem_append_right _ (List.mem_singleton_self _))
  have hRy : R ≤ y.start := by
    have h4 := pairwise_start_le_getLast _ y hsorted hy (sentinel R) hsent_mem
    simp only [sentinel] at h4
    omega
  have hy_eq : y = sentinel R := by
    rcases List.mem_append.mp hymem with h' | h'
    · have h1 := hb y h'
      exact eq_sentinel_of_start_eq R y hR32 h1 (by omega)
    · simpa using h'
  rw [hy, hy_eq]

lemma reserve_zero_start_spans (R : Nat) (resv : List SramReserve)
    (spans : List FreeSpan) (s : Nat) (hR : R < 2 ^ 32)
    (h : sram_reserve_regions R resv = .ok spans)
    (hmem : (⟨0, s⟩ : SramReserve) ∈ resv) :
    ∀ sp ∈ spans, s ≤ sp.start := by
  intro sp hsp
  by_contra hlt
  push_neg at hlt
  have hbounds := (reserve_regions_ok_elim R resv spans hR h).1
  have hsR : s ≤ R := by
    have h4 := hbounds _ hmem
    simpa using h4
  have hx : sp.start < R := by omega
  have hpart := sram_partition R resv spans hR h sp.start hx
  have h1 : 1 ≤ covCount resv sp.start :=
    covCount_pos _ _ ⟨0, s⟩ hmem ⟨Nat.zero_le _, by simpa using hlt⟩
  have hsz := (reserve_spans_props R resv spans hR h).1 sp hsp
  have h2 : 1 ≤ spanCount spans sp.start :=
    spanCount_pos _ _ sp hsp ⟨Nat.le_refl _, by omega⟩
  omega

lemma reserve_zero_start_span_at (R : Nat) (resv : List SramReserve)
    (spans : List FreeSpan) (s : Nat) (hR : R < 2 ^ 32)
    (h : sram_reserve_regions R resv = .ok spans)
    (hmem : (⟨0, s⟩ : SramReserve) ∈ resv) (hsR : s < R)
    (hfree : covCount resv s = 0) :
    ∃ sp ∈ spans, sp.start = s := by
  have hpart := sram_partition R resv spans hR h s hsR
  have hpos : 0 < spanCount spans s := by omega
  obtain ⟨sp, hsp, hc1, hc2⟩ := spanCount_exists spans s hpos
  have hge := reserve_zero_start_spans R resv spans s hR h hmem sp hsp
  exact ⟨sp, hsp, by omega⟩

lemma reserve_free_covered (R : Nat) (resv : List SramReserve) (spans : List FreeSpan)
    (hR : R < 2 ^ 32) (h : sram_reserve_regions R resv = .ok spans) :
    ∀ x, x < R → covCount resv x = 0 →
    ∃ sp ∈ spans, sp.start ≤ x ∧ x < sp.start + sp.size := by
  intro x hx hc
  have hpart := sram_partition R resv spans hR h x hx
  have hpos : 0 < spanCount spans x := by omega
  exact spanCount_exists spans x hpos

/-- Claim C1 counterexample: the partition property does not hold for every
region size.  At `Region.size = 2^32` the sentinel start truncates to `0`,
the empty reservation list is accepted, yet no free span is emitted, so
offset `0` of the region is covered by nothing. -/
theorem C1_partition_counterexample :
    sram_reserve_regions (2 ^ 32) [] = .ok [] ∧
    (0 : Nat) < 2 ^ 32 ∧
    covCount [] 0 + spanCount [] 0 = 0 := by
  refine ⟨by decide, by decide, by decide⟩

/-- Claim C1 (amended): for every region whose extent fits the 32-bit block
fields (`Region.size < 2^32`) and every reservation list accepted by
initialization, the reserved intervals (sentinel excluded) and the free
spans registered with the pool exactly partition the region: each offset
below `Region.size` is covered by exactly one reservation or one span, with
no overlap and no gap. -/
theorem C1_partition_property (R : Nat) (resv : List SramReserve) (spans : List FreeSpan)
    (hR : R < 2 ^ 32) (h : sram_reserve_regions R resv = .ok spans) :
    ∀ x, x < R → covCount resv x + spanCount spans x = 1 :=
  sram_partition R resv spans hR h

theorem C1_partition_property_witness :
    covCount [⟨0x4000, 0x1000⟩] 0x4800 + spanCount [⟨0, 0x4000⟩, ⟨0x5000, 0xB000⟩] 0x4800 = 1 :=
  C1_partition_property 0x10000 [⟨0x4000, 0x1000⟩] [⟨0, 0x4000⟩, ⟨0x5000, 0xB000⟩]
    (by decide) (by decide) 0x4800 (by decide)

/-- Claim C2 counterexample: with an intersecting pair present, the claimed
failure mode `OverlapDetected` does not always occur.  An additional
out-of-bounds reservation makes the bounds check fail first with
`OutOfBounds`; and for a region extent of `0x100000010` the in-bounds
intersecting pair `{0, 0x100000010}`, `{0x1000, 0x10}` is even accepted,
because the first block's size truncates to `0x10` in the u32 field. -/
theorem C2_overlap_rejection_counterexample :
    rangesIntersect ⟨0, 2⟩ ⟨1, 2⟩ = true ∧
    sram_reserve_regions 0x10000 [⟨0, 2⟩, ⟨1, 2⟩, ⟨0x20000, 1⟩] = .error .outOfBounds ∧
    sram_reserve_regions 0x10000 [⟨0, 2⟩, ⟨1, 2⟩, ⟨0x20000, 1⟩] ≠ .error .overlapDetected ∧
    rangesIntersect ⟨0, 0x100000010⟩ ⟨0x1000, 0x10⟩ = true ∧
    (∀ r ∈ ([⟨0, 0x100000010⟩, ⟨0x1000, 0x10⟩] : List SramReserve),
      r.start + r.size ≤ 0x100000010) ∧
    sram_reserve_regions 0x100000010 [⟨0, 0x100000010⟩, ⟨0x1000, 0x10⟩] =
      .ok [⟨0x10, 0xFF0⟩] := by
  refine ⟨by decide, by decide, by decide, by decide, by decide, by decide⟩

/-- Claim C2 (amended): for a region whose extent fits the 32-bit block
fields (`Region.size < 2^32`) and a reservation list that lies entirely
within the region bounds, any two reservations with intersecting ranges —
in any positions, hence under any input ordering — make initialization
fail with `OverlapDetected`, and no free-span result is produced. -/
theorem C2_overlap_rejection (R : Nat) (l₁ l₂ l₃ : List SramReserve) (a b : SramReserve)
    (hR : R < 2 ^ 32)
    (hb : ∀ r ∈ l₁ ++ a :: l₂ ++ b :: l₃, r.start + r.size ≤ R)
    (hab : rangesIntersect a b = true) :
    sram_reserve_regions R (l₁ ++ a :: l₂ ++ b :: l₃) = .error .overlapDetected :=
  reserve_overlap R l₁ l₂ l₃ a b hR hb hab

theorem C2_overlap_rejection_witness :
    sram_reserve_regions 0x10000 [⟨0x1000, 0x1000⟩, ⟨0x1800, 0x1000⟩] =
      .error .overlapDetected :=
  C2_overlap_rejection 0x10000 [] [] [] ⟨0x1000, 0x1000⟩ ⟨0x1800, 0x1000⟩
    (by decide) (by decide) (by decide)

/-- Claim C3: a reservation whose range is not contained in the region
makes initialization fail with the out-of-bounds error; the bounds check
runs before the scan, so no free span is registered and no part of the
reservation list is applied. -/
theorem C3_bounds_rejection (R : Nat) (resv : List SramReserve)
    (h : ∃ r ∈ resv, R < r.start + r.size) :
    sram_reserve_regions R resv = .error .outOfBounds :=
  reserve_oob R resv h

theorem C3_bounds_rejection_witness :
    sram_reserve_regions 0x10000 [⟨0xF000, 0x2000⟩] = .error .outOfBounds :=
  C3_bounds_rejection 0x10000 [⟨0xF000, 0x2000⟩] (by decide)

/-- Claim C4 counterexample: permuting the input can change the outcome.  A
zero-size reservation sharing its start with a nonzero one is accepted when
the stable sort keeps it first, but rejected as an overlap when it comes
second. -/
theorem C4_order_independence_counterexample :
    ([⟨0x1000, 0x1000⟩, ⟨0x1000, 0⟩] : List SramReserve).Perm
      [⟨0x1000, 0⟩, ⟨0x1000, 0x1000⟩] ∧
    sram_reserve_regions 0x10000 [⟨0x1000, 0x1000⟩, ⟨0x1000, 0⟩] =
      .error .overlapDetected ∧
    sram_reserve_regions 0x10000 [⟨0x1000, 0⟩, ⟨0x1000, 0x1000⟩] =
      .ok [⟨0, 0x1000⟩, ⟨0x2000, 0xE000⟩] :=
  ⟨List.Perm.swap _ _ _, by decide, by decide⟩

/-- Claim C4 (amended): provided the region extent is below `2^31` (so the
32-bit comparator orders all in-bounds blocks correctly) and no two entries
of the list share a start offset, any permutation of the reservation list
produces the identical result — the same free spans in the same order, or
the same error. -/
theorem C4_order_independence (R : Nat) (l₁ l₂ : List SramReserve)
    (hR : R < 2 ^ 31) (hperm : l₁.Perm l₂)
    (hnd : (l₁.map SramReserve.start).Nodup) :
    sram_reserve_regions R l₁ = sram_reserve_regions R l₂ := by
  have hR32 : R < 2 ^ 32 := by omega
  by_cases hoob : ∃ r ∈ l₁, R < r.start + r.size
  · obtain ⟨r, hr, hrb⟩ := hoob
    rw [reserve_oob R l₁ ⟨r, hr, hrb⟩, reserve_oob R l₂ ⟨r, hperm.mem_iff.mp hr, hrb⟩]
  · push_neg at hoob
    have hb₁ : ∀ r ∈ l₁, r.start + r.size ≤ R := fun r hr => hoob r hr
    have hb₂ : ∀ r ∈ l₂, r.start + r.size ≤ R := fun r hr => hb₁ r (hperm.mem_iff.mpr hr)
    have hsmall₁ : ∀ x ∈ l₁ ++ [sentinel R], x.start < 2 ^ 31 := by
      intro x hx
      rcases List.mem_append.mp hx with h' | h'
      · have := hb₁ x h'
        omega
      · have hx' : x = sentinel R := by simpa using h'
        subst hx'
        simp only [sentinel]
        omega
    have hsmall₂ : ∀ x ∈ l₂ ++ [sentinel R], x.start < 2 ^ 31 := by
      intro x hx
      rcases List.mem_append.mp hx with h' | h'
      · have := hb₂ x h'
        omega
      · have hx' : x = sentinel R := by simpa using h'
        subst hx'
        simp only [sentinel]
        omega
    have hkey : ∀ u ∈ sramSort (l₁ ++ [sentinel R]), ∀ v ∈ sramSort (l₁ ++ [sentinel R]),
        u.start = v.start → u = v := by
      intro u hu v hv huv
      have hu' := (sramSort_perm _).mem_iff.mp hu
      have hv' := (sramSort_perm _).mem_iff.mp hv
      rcases List.mem_append.mp hu' with hu1 | hu1 <;>
        rcases List.mem_append.mp hv' with hv1 | hv1
      · exact List.inj_on_of_nodup_map hnd hu1 hv1 huv
      · have hv2 : v = sentinel R := by simpa using hv1
        subst hv2
        have h2 : u.start = R := by
          have := huv
          simp only [sentinel] at this
          omega
        exact eq_sentinel_of_start_eq R u hR32 (hb₁ u hu1) h2
      · have hu2 : u = sentinel R := by simpa using hu1
        subst hu2
        have h2 : v.start = R := by
          have := huv.symm
          simp only [sentinel] at this
          omega
        exact (eq_sentinel_of_start_eq R v hR32 (hb₁ v hv1) h2).symm
      · have hu2 : u = sentinel R := by simpa using hu1
        have hv2 : v = sentinel R := by simpa using hv1
        rw [hu2, hv2]
    have hsorteq : sramSort (l₁ ++ [sentinel R]) = sramSort (l₂ ++ [sentinel R]) := by
      apply sorted_key_eq
      · exact (sramSort_perm _).trans ((hperm.append_right _).trans (sramSort_perm _).symm)
      · exact pairwise_sramSort _ hsmall₁
      · exact pairwise_sramSort _ hsmall₂
      · exact hkey
    rw [reserve_regions_ok_eq R l₁ l₁ (checkBounds_ok_of R l₁ hb₁),
      reserve_regions_ok_eq R l₂ l₂ (checkBounds_ok_of R l₂ hb₂),
      map_truncBlock_id l₁ (fun r hr => by have := hb₁ r hr; omega),
      map_truncBlock_id l₂ (fun r hr => by have := hb₂ r hr; omega),
      hsorteq]

theorem C4_order_independence_witness :
    sram_reserve_regions 0x10000 [⟨0x8000, 0x1000⟩, ⟨0x2000, 0x1000⟩] =
      sram_reserve_regions 0x10000 [⟨0x2000, 0x1000⟩, ⟨0x8000, 0x1000⟩] :=
  C4_order_independence 0x10000 _ _ (by decide) (List.Perm.swap _ _ _) (by decide)

/-- Claim C5 counterexample: the empty reservation list does not yield the
whole-region span for every positive region size.  At `Region.size = 2^32`
the sentinel start truncates to `0`, so the scan terminates immediately and
registers no span at all. -/
theorem C5_empty_counterexample :
    (0 : Nat) < 2 ^ 32 ∧
    sram_reserve_regions (2 ^ 32) [] = .ok [] ∧
    sram_reserve_regions (2 ^ 32) [] ≠ .ok [⟨0, 2 ^ 32⟩] := by
  refine ⟨by decide, by decide, by decide⟩

/-- Claim C5 (amended): an empty reservation list is accepted and yields
exactly one free span covering the whole region, for every region of
positive size that fits the 32-bit block fields (`0 < Region.size < 2^32`);
at `Region.size = 2^32` the truncated sentinel suppresses the span. -/
theorem C5_empty_reservations (R : Nat) (h : 0 < R) (hR : R < 2 ^ 32) :
    sram_reserve_regions R [] = .ok [⟨0, R⟩] := by
  rw [reserve_regions_ok_eq R [] [] rfl]
  have hsort : sramSort (([] : List SramReserve).map truncBlock ++ [sentinel R]) =
      [⟨R, 0⟩] := by
    rw [show (([] : List SramReserve).map truncBlock ++ [sentinel R]) = [sentinel R]
        from rfl,
      show sramSort [sentinel R] = [sentinel R] from rfl,
      sentinel_eq_of_lt R hR]
  rw [hsort, gapScan_emit 0 ⟨R, 0⟩ [] [] h]
  simp [gapScan, Except.map]

theorem C5_empty_reservations_witness :
    sram_reserve_regions 0x10000 [] = .ok [⟨0, 0x10000⟩] :=
  C5_empty_reservations 0x10000 (by decide) (by decide)

/-- Claim C6 counterexample: with back-to-back reservations the free span
following a reservation that starts at offset 0 does not start at that
reservation's end — the scan skips the adjacent second reservation first,
so the span starts at `0x2000`, not at `0x1000`. -/
theorem C6_adjacency_counterexample :
    (⟨0, 0x1000⟩ : SramReserve) ∈ ([⟨0, 0x1000⟩, ⟨0x1000, 0x1000⟩] : List SramReserve) ∧
    sram_reserve_regions 0x10000 [⟨0, 0x1000⟩, ⟨0x1000, 0x1000⟩] = .ok [⟨0x2000, 0xE000⟩] ∧
    (0x2000 : Nat) ≠ 0 + 0x1000 := by
  refine ⟨by decide, by decide, by decide⟩

/-- Claim C6 (amended): a block starting exactly at the cursor emits no free
span and advances the cursor to the u32-wrapped `b.start + b.size` — in
particular a zero-size block at any cursor value below `2^32` and the
sentinel at the end of a trailing reservation are skipped with no effect;
consequently, for a region whose extent fits the 32-bit block fields, when
an accepted input contains a reservation starting at offset 0, every
emitted span starts at or after that reservation's end, and exactly at its
end when that end offset is not itself reserved. -/
theorem C6_adjacency :
    (∀ (cur : Nat) (b : SramReserve) (rest : List SramReserve) (acc : List FreeSpan),
        b.start = cur →
        gapScan cur (b :: rest) acc = gapScan ((b.start + b.size) % 2 ^ 32) rest acc) ∧
    (∀ (cur : Nat) (rest : List SramReserve) (acc : List FreeSpan), cur < 2 ^ 32 →
        gapScan cur ((⟨cur, 0⟩ : SramReserve) :: rest) acc = gapScan cur rest acc) ∧
    (∀ (R : Nat) (rest : List SramReserve) (acc : List FreeSpan),
        gapScan (R % 2 ^ 32) (sentinel R :: rest) acc = gapScan (R % 2 ^ 32) rest acc) ∧
    (∀ (R : Nat) (resv : List SramReserve) (spans : List FreeSpan) (s : Nat), R < 2 ^ 32 →
        sram_reserve_regions R resv = .ok spans → (⟨0, s⟩ : SramReserve) ∈ resv →
        ∀ sp ∈ spans, s ≤ sp.start) ∧
    (∀ (R : Nat) (resv : List SramReserve) (spans : List FreeSpan) (s : Nat), R < 2 ^ 32 →
        sram_reserve_regions R resv = .ok spans → (⟨0, s⟩ : SramReserve) ∈ resv →
        s < R → covCount resv s = 0 → ∃ sp ∈ spans, sp.start = s) := by
  refine ⟨?_, ?_, ?_, ?_, ?_⟩
  · intro cur b rest acc hb
    exact gapScan_skip cur b rest acc hb
  · intro cur rest acc hcur
    have h := gapScan_skip cur ⟨cur, 0⟩ rest acc rfl
    have h2 : ((⟨cur, 0⟩ : SramReserve).start + (⟨cur, 0⟩ : SramReserve).size) % 2 ^ 32
        = cur := by
      show (cur + 0) % 2 ^ 32 = cur
      omega
    rw [h, h2]
  · intro R rest acc
    have h := gapScan_skip (R % 2 ^ 32) (sentinel R) rest acc rfl
    have h2 : ((sentinel R).start + (sentinel R).size) % 2 ^ 32 = R % 2 ^ 32 := by
      show (R % 2 ^ 32 + 0) % 2 ^ 32 = R % 2 ^ 32
      omega
    rw [h, h2]
  · intro R resv spans s hR h hmem
    exact reserve_zero_start_spans R resv spans s hR h hmem
  · intro R resv spans s hR h hmem hsR hfree
    exact reserve_zero_start_span_at R resv spans s hR h hmem hsR hfree

theorem C6_adjacency_witness :
    gapScan 5 [⟨5, 3⟩] [] = gapScan 8 [] [] ∧ (0x1000 : Nat) ≤ 0x2000 := by
  constructor
  · exact C6_adjacency.1 5 ⟨5, 3⟩ [] [] rfl
  · exact C6_adjacency.2.2.2.1 0x10000 [⟨0, 0x1000⟩, ⟨0x1000, 0x1000⟩] [⟨0x2000, 0xE000⟩]
      0x1000 (by decide) (by decide) (by decide) ⟨0x2000, 0xE000⟩ (by decide)

/-- Claim C7 counterexample: the sentinel is not always scanned last.  For a
region extent just above `2^31` the truncated 32-bit comparator places the
sentinel before an in-bounds reservation at offset 0, and the scan then
rejects the perfectly valid input instead of emitting the tail span. -/
theorem C7_sentinel_counterexample :
    sramSort ([⟨0, 0x10⟩] ++ [sentinel 0x80001000]) = [sentinel 0x80001000, ⟨0, 0x10⟩] ∧
    (sramSort ([⟨0, 0x10⟩] ++ [sentinel 0x80001000])).getLast? ≠ some (sentinel 0x80001000) ∧
    (∀ r ∈ ([⟨0, 0x10⟩] : List SramReserve), r.start + r.size ≤ 0x80001000) ∧
    sram_reserve_regions 0x80001000 [⟨0, 0x10⟩] = .error .overlapDetected := by
  refine ⟨by decide, by decide, by decide, by decide⟩

/-- Claim C7 (amended): a block starting beyond the cursor first emits the
free span from the cursor to the block start and advances the cursor to the
u32-wrapped `b.start + b.size`; exactly one sentinel is appended before
sorting, and provided the region extent is below `2^31` (so the 32-bit
comparator orders it after every in-bounds block) it is scanned last, so on
accepted inputs of regions below `2^32` every unreserved offset — including
the tail up to `Region.size` — is covered by an emitted span with no
special case. -/
theorem C7_sentinel_tail :
    (∀ (cur : Nat) (b : SramReserve) (rest : List SramReserve) (acc : List FreeSpan),
        cur < b.start →
        gapScan cur (b :: rest) acc =
          gapScan ((b.start + b.size) % 2 ^ 32) rest (acc ++ [⟨cur, b.start - cur⟩])) ∧
    (∀ (R : Nat) (resv : List SramReserve), R < 2 ^ 31 →
        (∀ r ∈ resv, r.start + r.size ≤ R) →
        (sramSort (resv ++ [sentinel R])).getLast? = some (sentinel R)) ∧
    (∀ (R : Nat) (resv : List SramReserve) (spans : List FreeSpan), R < 2 ^ 32 →
        sram_reserve_regions R resv = .ok spans →
        ∀ x, x < R → covCount resv x = 0 →
        ∃ sp ∈ spans, sp.start ≤ x ∧ x < sp.start + sp.size) := by
  refine ⟨?_, ?_, ?_⟩
  · intro cur b rest acc hb
    exact gapScan_emit cur b rest acc hb
  · intro R resv hR hb
    exact sentinel_last R resv hR hb
  · intro R resv spans hR h
    exact reserve_free_covered R resv spans hR h

theorem C7_sentinel_tail_witness :
    gapScan 0 [⟨5, 2⟩] [] = gapScan 7 [] [⟨0, 5⟩] ∧
    (sramSort ([⟨0x4000, 0x1000⟩] ++ [sentinel 0x10000])).getLast? = some (sentinel 0x10000) ∧
    (∃ sp ∈ ([⟨0, 0x4000⟩, ⟨0x5000, 0xB000⟩] : List FreeSpan),
      sp.start ≤ 0xF000 ∧ (0xF000 : Nat) < sp.start + sp.size) := by
  refine ⟨?_, ?_, ?_⟩
  · exact C7_sentinel_tail.1 0 ⟨5, 2⟩ [] [] (by decide)
  · exact C7_sentinel_tail.2.1 0x10000 [⟨0x4000, 0x1000⟩] (by decide) (by decide)
  · exact C7_sentinel_tail.2.2 0x10000 [⟨0x4000, 0x1000⟩] [⟨0, 0x4000⟩, ⟨0x5000, 0xB000⟩]
      (by decide) (by decide) 0xF000 (by decide) (by decide)

/-- Claim C8: at teardown an outstanding allocation (available capacity
below total capacity) only fires the diagnostic; the return value is still
`0` and the clock, when present, is disabled unconditionally. -/
theorem C8_teardown_diagnostic (s : SramDev) (h : s.pool.avail < s.pool.size) :
    (sram_remove s).1 = 0 ∧ (sram_remove s).2.1 = true ∧
    (s.clkPresent = true → (sram_remove s).2.2.clkEnabled = false) := by
  refine ⟨rfl, by simp [sram_remove, h], ?_⟩
  intro hc
  simp [sram_remove, hc]

theorem C8_teardown_diagnostic_witness :
    (sram_remove ⟨⟨64, 32⟩, true, true⟩).1 = 0 ∧
    (sram_remove ⟨⟨64, 32⟩, true, true⟩).2.1 = true ∧
    (true = true → (sram_remove ⟨⟨64, 32⟩, true, true⟩).2.2.clkEnabled = false) :=
  C8_teardown_diagnostic ⟨⟨64, 32⟩, true, true⟩ (by decide)

/-- Claim C9 counterexample: the comparator does not order all u32 start
values correctly.  At `a.start = 2^31`, `b.start = 0` the u32 subtraction
truncated to a signed int is negative although `a.start > b.start`, where
the claim demands a positive result. -/
theorem C9_cmp_counterexample :
    (⟨0, 0⟩ : SramReserve).start < (⟨0x80000000, 0⟩ : SramReserve).start ∧
    sram_reserve_cmp ⟨0x80000000, 0⟩ ⟨0, 0⟩ < 0 := by
  refine ⟨by decide, by decide⟩

/-- Claim C9 (amended): whenever both start offsets fit in u32 and their
difference in either direction is below `2^31`, `sram_reserve_cmp` returns
a negative, zero, or positive value exactly as `a.start` is below, equal
to, or above `b.start`. -/
theorem C9_cmp_sign (a b : SramReserve) (ha : a.start < 2 ^ 32) (hb : b.start < 2 ^ 32)
    (hd1 : a.start ≤ b.start → b.start - a.start < 2 ^ 31)
    (hd2 : b.start ≤ a.start → a.start - b.start < 2 ^ 31) :
    (sram_reserve_cmp a b < 0 ↔ a.start < b.start) ∧
    (sram_reserve_cmp a b = 0 ↔ a.start = b.start) ∧
    (0 < sram_reserve_cmp a b ↔ b.start < a.start) :=
  cmp_sign_spec a b ha hb hd1 hd2

theorem C9_cmp_sign_witness :
    sram_reserve_cmp ⟨3, 1⟩ ⟨5, 2⟩ < 0 :=
  ((C9_cmp_sign ⟨3, 1⟩ ⟨5, 2⟩ (by decide) (by decide)
    (fun _ => by decide) (fun _ => by decide)).1).mpr (by decide)

/-- Claim C10 counterexample: the scan invariants fail beyond the u32
domain.  For a region extent of `0x100000010` the in-bounds blocks below
are accepted, but the cursor update `0x20 + 0xFFFFFFF0` wraps mod `2^32`
back to `0x10`, and the scan emits the overlapping spans `{0x10, 0x10}`
and `{0x10, 0x30}` — neither disjoint nor in strictly ascending start
order, and offset `0x10` is covered twice. -/
theorem C10_scan_counterexample :
    (∀ r ∈ ([⟨0, 0x10⟩, ⟨0x20, 0xFFFFFFF0⟩, ⟨0x40, 0x10⟩] : List SramReserve),
      r.start + r.size ≤ 0x100000010) ∧
    sram_reserve_regions 0x100000010 [⟨0, 0x10⟩, ⟨0x20, 0xFFFFFFF0⟩, ⟨0x40, 0x10⟩] =
      .ok [⟨0x10, 0x10⟩, ⟨0x10, 0x30⟩] ∧
    spanCount [⟨0x10, 0x10⟩, ⟨0x10, 0x30⟩] 0x10 = 2 ∧
    ¬ List.Pairwise (fun s t : FreeSpan => s.start + s.size ≤ t.start ∧ s.start < t.start)
      [⟨0x10, 0x10⟩, ⟨0x10, 0x30⟩] := by
  refine ⟨by decide, by decide, by decide, by decide⟩

/-- Claim C10 (amended): whenever no block's `start + size` reaches `2^32`
(so no cursor update wraps) the scan cursor never decreases; against any
bound dominating all block end sums the cursor never exceeds that bound;
and on every accepted input of a region whose extent fits the 32-bit block
fields, every emitted free span is nonempty, lies inside the region, and
the spans are pairwise disjoint in strictly ascending start order. -/
theorem C10_scan_invariants :
    (∀ (blocks : List SramReserve) (cur : Nat) (acc : List FreeSpan)
        (c' : Nat) (sp : List FreeSpan),
        (∀ b ∈ blocks, b.start + b.size < 2 ^ 32) →
        gapScan cur blocks acc = .ok (c', sp) → cur ≤ c') ∧
    (∀ (R : Nat) (blocks : List SramReserve) (cur : Nat) (acc : List FreeSpan)
        (c' : Nat) (sp : List FreeSpan),
        (∀ b ∈ blocks, b.start + b.size ≤ R) → cur ≤ R →
        gapScan cur blocks acc = .ok (c', sp) → c' ≤ R) ∧
    (∀ (R : Nat) (resv : List SramReserve) (spans : List FreeSpan), R < 2 ^ 32 →
        sram_reserve_regions R resv = .ok spans →
        (∀ s ∈ spans, 0 < s.size ∧ s.start + s.size ≤ R) ∧
        spans.Pairwise (fun s t => s.start + s.size ≤ t.start ∧ s.start < t.start)) := by
  refine ⟨?_, ?_, ?_⟩
  · intro blocks cur acc c' sp hsm h
    exact gapScan_mono blocks cur acc c' sp hsm h
  · intro R blocks cur acc c' sp hb hcur h
    exact gapScan_bound R blocks cur acc c' sp hb hcur h
  · intro R resv spans hR h
    obtain ⟨hsz, hpw⟩ := reserve_spans_props R resv spans hR h
    refine ⟨hsz, ?_⟩
    refine hpw.imp_of_mem ?_
    intro s t hs ht hst
    have := (hsz s hs).1
    exact ⟨hst, by omega⟩

theorem C10_scan_invariants_witness :
    (0 : Nat) ≤ 5 ∧ (5 : Nat) ≤ 0x10 ∧
    (0 < 0x4000 ∧ (0 : Nat) + 0x4000 ≤ 0x10000) := by
  refine ⟨?_, ?_, ?_⟩
  · exact C10_scan_invariants.1 [⟨2, 3⟩] 0 [] 5 [⟨0, 2⟩] (by decide) (by decide)
  · exact C10_scan_invariants.2.1 0x10 [⟨2, 3⟩] 0 [] 5 [⟨0, 2⟩] (by decide) (by decide)
      (by decide)
  · exact (C10_scan_invariants.2.2 0x10000 [⟨0x4000, 0x1000⟩]
      [⟨0, 0x4000⟩, ⟨0x5000, 0xB000⟩] (by decide) (by decide)).1 ⟨0, 0x4000⟩ (by decide)

end Sram
